import Mathlib

/-!
Verification of the numeric teaching snippets in the nvidia-cuda-tutorial
notebooks.  Python floats are modelled as exact rationals (`ℚ`), NumPy int
scalars as `ℤ` with explicit range hypotheses where the dtype matters, and
1D/2D arrays as `List`s.  CUDA thread grids are modelled by executing every
thread's kernel body explicitly (atomic additions become sequential
increments; genuinely racy code gets an explicit interleaving semantics).
-/

/-! ## Scalar ufuncs -/

/-- Source `rel_diff` (guvectorize notebook): `2 * (x - y) / (x + y)`. -/
def rel_diff (x y : ℚ) : ℚ :=
  2 * (x - y) / (x + y)

/-- Model of numba `@vectorize` applied to `rel_diff` on two equal-length
1D arrays: elementwise broadcast. -/
def rel_diff_vec (a b : List ℚ) : List ℚ :=
  List.zipWith rel_diff a b

/-- Source `zero_suppress` (session-1 ufuncs notebook):
`if waveform_value < threshold: result = 0 else: result = waveform_value`. -/
def zero_suppress (waveform_value threshold : ℤ) : ℤ :=
  if waveform_value < threshold then 0 else waveform_value

/-! ## Reduction (session-3 porting notebook) -/

/-- Source `sum_reduce` body: `lambda a, b: a + b` (the function under
`@cuda.reduce`). -/
def sum_reduce (a b : ℚ) : ℚ :=
  a + b

/-- Binary reduction tree: models the (unspecified) grouping and ordering
a parallel reduction may use over the array elements. -/
inductive RTree where
  | leaf (a : ℚ)
  | node (l r : RTree)

/-- Value obtained by combining the tree's leaves with `sum_reduce`. -/
def RTree.eval : RTree → ℚ
  | .leaf a => a
  | .node l r => sum_reduce l.eval r.eval

/-- Leaves of a reduction tree, left to right. -/
def RTree.leaves : RTree → List ℚ
  | .leaf a => [a]
  | .node l r => l.leaves ++ r.leaves

/-- Sequential left-to-right reduction of a nonempty array, as a plain
left fold of `sum_reduce` over the elements. -/
def seqReduce (x : ℚ) (xs : List ℚ) : ℚ :=
  xs.foldl sum_reduce x

theorem RTree.eval_eq_sum (t : RTree) : t.eval = t.leaves.sum := by
  induction t with
  | leaf a => simp [RTree.eval, RTree.leaves]
  | node l r ihl ihr => simp [RTree.eval, RTree.leaves, sum_reduce, ihl, ihr]

theorem seqReduce_eq_sum (x : ℚ) (xs : List ℚ) : seqReduce x xs = x + xs.sum := by
  induction xs generalizing x with
  | nil => simp [seqReduce]
  | cons y ys ih =>
      simp only [seqReduce, List.foldl_cons, List.sum_cons] at *
      rw [ih]
      simp [sum_reduce]
      ring

/-! ## Claim theorems (first batch) -/

/-- C8: for equal-length arrays `a` and `b`, the vectorized `rel_diff`
produces an array of the same length whose `i`-th element is
`2 * (a[i] - b[i]) / (a[i] + b[i])`: exactly the elementwise broadcast of
the scalar body. -/
theorem C8_rel_diff_vectorize (a b : List ℚ) (hlen : a.length = b.length) :
    (rel_diff_vec a b).length = a.length ∧
    ∀ i : ℕ, i < a.length →
      (rel_diff_vec a b).getD i 0 =
        2 * (a.getD i 0 - b.getD i 0) / (a.getD i 0 + b.getD i 0) := by
  constructor
  · simp [rel_diff_vec, hlen]
  · intro i hi
    have hib : i < b.length := hlen ▸ hi
    have hiz : i < (rel_diff_vec a b).length := by
      simp [rel_diff_vec, hlen, hi, hib]
    rw [List.getD_eq_getElem _ _ hiz, List.getD_eq_getElem _ _ hi,
      List.getD_eq_getElem _ _ hib]
    simp [rel_diff_vec, rel_diff]

/-- C8 witness at a concrete pair of arrays. -/
theorem C8_rel_diff_vectorize_witness :
    (rel_diff_vec [1, 2] [3, 4]).length = 2 ∧
    (rel_diff_vec [1, 2] [3, 4]).getD 0 0 = 2 * (1 - 3) / (1 + 3) := by
  have h := C8_rel_diff_vectorize [1, 2] [3, 4] (by decide)
  exact ⟨h.1, by
    have h0 := h.2 0 (by decide)
    simpa using h0⟩

/-- C9: `zero_suppress` returns 0 when the sample is below the threshold
and the sample unchanged otherwise; hence every output is either 0 or at
least the threshold, and samples above the threshold are never altered. -/
theorem C9_zero_suppress_spec (waveform_value threshold : ℤ)
    (hw₁ : -(2 ^ 15) ≤ waveform_value) (hw₂ : waveform_value < 2 ^ 15)
    (ht₁ : -(2 ^ 31) ≤ threshold) (ht₂ : threshold < 2 ^ 31) :
    (waveform_value < threshold → zero_suppress waveform_value threshold = 0) ∧
    (¬ waveform_value < threshold →
      zero_suppress waveform_value threshold = waveform_value) ∧
    (zero_suppress waveform_value threshold = 0 ∨
      threshold ≤ zero_suppress waveform_value threshold) ∧
    (threshold < waveform_value →
      zero_suppress waveform_value threshold = waveform_value) := by
  refine ⟨fun h => by simp [zero_suppress, h], fun h => by simp [zero_suppress, h], ?_, ?_⟩
  · by_cases h : waveform_value < threshold
    · exact Or.inl (by simp [zero_suppress, h])
    · exact Or.inr (by simp [zero_suppress, h]; omega)
  · intro h
    have : ¬ waveform_value < threshold := by omega
    simp [zero_suppress, this]

/-- C9 witness at concrete sample/threshold values. -/
theorem C9_zero_suppress_spec_witness :
    zero_suppress 7 15 = 0 ∧ (zero_suppress 20 15 = 0 ∨ 15 ≤ zero_suppress 20 15) := by
  have h1 := C9_zero_suppress_spec 7 15 (by decide) (by decide) (by decide) (by decide)
  have h2 := C9_zero_suppress_spec 20 15 (by decide) (by decide) (by decide) (by decide)
  exact ⟨h1.1 (by decide), h2.2.2.1⟩

/-- C7: the combining operation of `sum_reduce` is associative and
commutative, and reducing the elements of an array with any reduction
tree whose leaves are any reordering of the array yields the sequential
left-to-right sum of the array. -/
theorem C7_sum_reduce_assoc_comm_tree :
    (∀ a b c : ℚ, sum_reduce (sum_reduce a b) c = sum_reduce a (sum_reduce b c)) ∧
    (∀ a b : ℚ, sum_reduce a b = sum_reduce b a) ∧
    (∀ (t : RTree) (x : ℚ) (xs : List ℚ), t.leaves.Perm (x :: xs) →
      t.eval = seqReduce x xs) := by
  refine ⟨fun a b c => by simp [sum_reduce]; ring, fun a b => by simp [sum_reduce]; ring, ?_⟩
  intro t x xs hperm
  rw [RTree.eval_eq_sum, hperm.sum_eq, seqReduce_eq_sum]
  simp

/-- C7 witness: a concrete unbalanced tree over a reordering of `[3, 1, 2]`
reduces to the sequential sum. -/
theorem C7_sum_reduce_assoc_comm_tree_witness :
    (RTree.node (RTree.leaf 1) (RTree.node (RTree.leaf 2) (RTree.leaf 3))).eval =
      seqReduce 3 [1, 2] := by
  exact C7_sum_reduce_assoc_comm_tree.2.2 _ 3 [1, 2] (by decide)

/-! ## Histogram (CUDA kernels notebook) -/

/-- Truncation toward zero of a rational, modelling the C-style cast that
`np.int32` applies to a float value (the tutorial values never approach
the int32 range, so wraparound is not modelled). -/
def ratTruncToInt (q : ℚ) : ℤ :=
  if 0 ≤ q then ⌊q⌋ else -⌊-q⌋

/-- Bin index `np.int32((element - xmin)/bin_width)` computed by both
`cpu_histogram` and `cuda_histogram`. -/
def bin_number (xmin bin_width element : ℚ) : ℤ :=
  ratTruncToInt ((element - xmin) / bin_width)

/-- Loop body of `cpu_histogram`: bucket one element, incrementing its bin
only when the bin index is in range. -/
def histStep (xmin bin_width : ℚ) (h : List ℤ) (element : ℚ) : List ℤ :=
  let bn := bin_number xmin bin_width element
  if 0 ≤ bn ∧ bn < (h.length : ℤ) then
    h.set bn.toNat (h.getD bn.toNat 0 + 1)
  else h

/-- Source `cpu_histogram`: sequential loop over the elements of `x`,
with `nbins = histogram_out.shape[0]` and
`bin_width = (xmax - xmin) / nbins`. -/
def cpu_histogram (x : List ℚ) (xmin xmax : ℚ) (histogram_out : List ℤ) : List ℤ :=
  let nbins : ℕ := histogram_out.length
  let bin_width : ℚ := (xmax - xmin) / (nbins : ℚ)
  x.foldl (histStep xmin bin_width) histogram_out

/-- Source `cuda_histogram` thread body: thread `x_idx = cuda.grid(1)`
handles at most the element at `x_idx`, applies the same in-range guard,
and performs `cuda.atomic.add(histogram_out, bin_number, 1)` (modelled as
a sequential increment). -/
def cuda_histogram_thread (x : List ℚ) (xmin xmax : ℚ) (histogram_out : List ℤ)
    (x_idx : ℕ) : List ℤ :=
  let nbins : ℕ := histogram_out.length
  let bin_width : ℚ := (xmax - xmin) / (nbins : ℚ)
  if x_idx < x.length then
    let bn := bin_number xmin bin_width (x.getD x_idx 0)
    if 0 ≤ bn ∧ bn < (histogram_out.length : ℤ) then
      histogram_out.set bn.toNat (histogram_out.getD bn.toNat 0 + 1)
    else histogram_out
  else histogram_out

/-- Launch of `cuda_histogram` over a 1D grid of `gridsize` threads, the
atomic additions sequentialized in thread-index order. -/
def cuda_histogram_run (x : List ℚ) (xmin xmax : ℚ) (histogram_out : List ℤ)
    (gridsize : ℕ) : List ℤ :=
  (List.range gridsize).foldl (cuda_histogram_thread x xmin xmax) histogram_out

theorem histStep_length (xmin bw : ℚ) (h : List ℤ) (e : ℚ) :
    (histStep xmin bw h e).length = h.length := by
  unfold histStep
  dsimp only
  split
  · simp
  · rfl

theorem histStep_getD (xmin bw : ℚ) (h : List ℤ) (e : ℚ) (j : ℕ) (hj : j < h.length) :
    (histStep xmin bw h e).getD j 0 =
      h.getD j 0 + if bin_number xmin bw e = (j : ℤ) then 1 else 0 := by
  unfold histStep
  dsimp only
  by_cases hg : 0 ≤ bin_number xmin bw e ∧ bin_number xmin bw e < (h.length : ℤ)
  · rw [if_pos hg]
    have hbn : (bin_number xmin bw e).toNat < h.length := by omega
    have hjset : j < (h.set (bin_number xmin bw e).toNat (h.getD (bin_number xmin bw e).toNat 0 + 1)).length := by
      simpa using hj
    rw [List.getD_eq_getElem _ _ hjset, List.getElem_set]
    by_cases heq : bin_number xmin bw e = (j : ℤ)
    · have : (bin_number xmin bw e).toNat = j := by omega
      rw [if_pos this, if_pos heq, this]
    · have : (bin_number xmin bw e).toNat ≠ j := by omega
      rw [if_neg this, if_neg heq, List.getD_eq_getElem _ _ hj]
      ring
  · rw [if_neg hg]
    have : ¬ bin_number xmin bw e = (j : ℤ) := by omega
    rw [if_neg this]
    ring

theorem foldl_histStep_length (xmin bw : ℚ) (x : List ℚ) (h : List ℤ) :
    (x.foldl (histStep xmin bw) h).length = h.length := by
  induction x generalizing h with
  | nil => rfl
  | cons e x ih => rw [List.foldl_cons, ih, histStep_length]

theorem foldl_histStep_getD (xmin bw : ℚ) (x : List ℚ) (h : List ℤ) (j : ℕ)
    (hj : j < h.length) :
    (x.foldl (histStep xmin bw) h).getD j 0 =
      h.getD j 0 + (x.countP (fun e => bin_number xmin bw e = (j : ℤ)) : ℤ) := by
  induction x generalizing h with
  | nil => simp
  | cons e x ih =>
      rw [List.foldl_cons]
      have hj2 : j < (histStep xmin bw h e).length := by rw [histStep_length]; exact hj
      rw [ih _ hj2, histStep_getD _ _ _ _ _ hj, List.countP_cons]
      by_cases heq : bin_number xmin bw e = (j : ℤ)
      · simp [heq]
        ring
      · simp [heq]

theorem sum_set_incr (h : List ℤ) (j : ℕ) (hj : j < h.length) :
    (h.set j (h.getD j 0 + 1)).sum = h.sum + 1 := by
  rw [List.sum_set, if_pos hj]
  conv_rhs => rw [← List.take_append_drop j h, List.sum_append, List.drop_eq_getElem_cons hj]
  rw [List.sum_cons, List.getD_eq_getElem _ _ hj]
  ring

theorem histStep_sum (xmin bw : ℚ) (h : List ℤ) (e : ℚ) :
    (histStep xmin bw h e).sum =
      h.sum + if 0 ≤ bin_number xmin bw e ∧ bin_number xmin bw e < (h.length : ℤ)
        then 1 else 0 := by
  unfold histStep
  dsimp only
  by_cases hg : 0 ≤ bin_number xmin bw e ∧ bin_number xmin bw e < (h.length : ℤ)
  · rw [if_pos hg, if_pos hg, sum_set_incr]
    omega
  · rw [if_neg hg, if_neg hg]
    ring

theorem foldl_histStep_sum (xmin bw : ℚ) (x : List ℚ) (h : List ℤ) :
    (x.foldl (histStep xmin bw) h).sum =
      h.sum + (x.countP (fun e =>
        0 ≤ bin_number xmin bw e ∧ bin_number xmin bw e < (h.length : ℤ)) : ℤ) := by
  induction x generalizing h with
  | nil => simp
  | cons e x ih =>
      rw [List.foldl_cons, ih, histStep_sum, List.countP_cons, histStep_length]
      simp only [decide_eq_true_eq]
      by_cases hg : 0 ≤ bin_number xmin bw e ∧ bin_number xmin bw e < (h.length : ℤ)
      · rw [if_pos hg, if_pos hg]
        push_cast
        ring
      · rw [if_neg hg, if_neg hg]
        push_cast
        ring

/-- C1: `cpu_histogram` adds, for each element of `x`, one count to the
bin with index `int32((element - xmin)/bin_width)` exactly when that
index lies in `[0, nbins)`, and leaves the histogram untouched for every
out-of-range element: bin `j` of the result exceeds bin `j` of the input
by the number of elements whose computed bin index is `j`, and the total
added across all bins equals the number of in-range elements.  The
embedding folds over `x` without touching it, reflecting that the source
never writes to `x`. -/
theorem C1_cpu_histogram_spec (x : List ℚ) (xmin xmax : ℚ) (histogram_out : List ℤ)
    (hrange : xmin < xmax) (hbins : 1 ≤ histogram_out.length) :
    (cpu_histogram x xmin xmax histogram_out).length = histogram_out.length ∧
    (∀ j : ℕ, j < histogram_out.length →
      (cpu_histogram x xmin xmax histogram_out).getD j 0 =
        histogram_out.getD j 0 +
          (x.countP (fun e =>
            bin_number xmin ((xmax - xmin) / (histogram_out.length : ℚ)) e = (j : ℤ)) : ℤ)) ∧
    (cpu_histogram x xmin xmax histogram_out).sum =
      histogram_out.sum +
        (x.countP (fun e =>
          0 ≤ bin_number xmin ((xmax - xmin) / (histogram_out.length : ℚ)) e ∧
          bin_number xmin ((xmax - xmin) / (histogram_out.length : ℚ)) e
            < (histogram_out.length : ℤ)) : ℤ) := by
  unfold cpu_histogram
  exact ⟨foldl_histStep_length _ _ _ _,
    fun j hj => foldl_histStep_getD _ _ _ _ _ hj,
    foldl_histStep_sum _ _ _ _⟩

/-- C1 witness: a two-element input with one in-range and one out-of-range
element against a four-bin histogram. -/
theorem C1_cpu_histogram_spec_witness :
    (cpu_histogram [1/2, 5] 0 4 [0, 0, 0, 0]).sum =
      ([0, 0, 0, 0] : List ℤ).sum +
        (([1/2, 5] : List ℚ).countP (fun e =>
          0 ≤ bin_number 0 ((4 - 0) / ((4 : ℕ) : ℚ)) e ∧
          bin_number 0 ((4 - 0) / ((4 : ℕ) : ℚ)) e < ((4 : ℕ) : ℤ)) : ℤ) := by
  exact (C1_cpu_histogram_spec [1/2, 5] 0 4 [0, 0, 0, 0] (by norm_num) (by decide)).2.2

/-! ## Fold helper lemmas for sequentialized kernel launches -/

theorem foldl_congr_of_inv {α β : Type} (P : β → Prop) (f g : β → α → β)
    (l : List α) (b : β) (hb : P b)
    (hpres : ∀ bb a, P bb → P (f bb a))
    (hagree : ∀ bb a, P bb → a ∈ l → f bb a = g bb a) :
    l.foldl f b = l.foldl g b := by
  induction l generalizing b with
  | nil => rfl
  | cons a l ih =>
      rw [List.foldl_cons, List.foldl_cons, hagree b a hb (by simp)]
      have hga : P (g b a) := by
        rw [← hagree b a hb (by simp)]
        exact hpres b a hb
      exact ih (g b a) hga (fun bb a2 hbb ha2 => hagree bb a2 hbb (by simp [ha2]))

theorem foldl_fix {α β : Type} (f : β → α → β) (l : List α) (b : β)
    (hfix : ∀ bb a, a ∈ l → f bb a = bb) : l.foldl f b = b := by
  induction l generalizing b with
  | nil => rfl
  | cons a l ih =>
      rw [List.foldl_cons, hfix b a (by simp)]
      exact ih b (fun bb a2 ha2 => hfix bb a2 (by simp [ha2]))

theorem cuda_histogram_thread_length (x : List ℚ) (xmin xmax : ℚ) (h : List ℤ)
    (tid : ℕ) : (cuda_histogram_thread x xmin xmax h tid).length = h.length := by
  unfold cuda_histogram_thread
  dsimp only
  by_cases h1 : tid < x.length
  · rw [if_pos h1]
    by_cases h2 : 0 ≤ bin_number xmin ((xmax - xmin) / (h.length : ℚ)) (x.getD tid 0) ∧
        bin_number xmin ((xmax - xmin) / (h.length : ℚ)) (x.getD tid 0) < (h.length : ℤ)
    · rw [if_pos h2]
      simp
    · rw [if_neg h2]
  · rw [if_neg h1]

theorem cuda_histogram_thread_ge (x : List ℚ) (xmin xmax : ℚ) (h : List ℤ)
    (tid : ℕ) (htid : x.length ≤ tid) : cuda_histogram_thread x xmin xmax h tid = h := by
  unfold cuda_histogram_thread
  dsimp only
  rw [if_neg (by omega)]

theorem cuda_histogram_thread_lt (x : List ℚ) (xmin xmax : ℚ) (h : List ℤ)
    (tid : ℕ) (htid : tid < x.length) :
    cuda_histogram_thread x xmin xmax h tid =
      histStep xmin ((xmax - xmin) / (h.length : ℚ)) h (x.getD tid 0) := by
  unfold cuda_histogram_thread histStep
  dsimp only
  rw [if_pos htid]

theorem foldl_range_histStep (xmin bw : ℚ) (x : List ℚ) (h : List ℤ) :
    (List.range x.length).foldl (fun hh tid => histStep xmin bw hh (x.getD tid 0)) h =
      x.foldl (histStep xmin bw) h := by
  induction x using List.reverseRecOn generalizing h with
  | nil => rfl
  | append_singleton xs a ih =>
      rw [List.length_append, List.length_singleton, List.range_succ, List.foldl_append,
        List.foldl_append]
      have hcongr : (List.range xs.length).foldl
          (fun hh tid => histStep xmin bw hh ((xs ++ [a]).getD tid 0)) h =
          (List.range xs.length).foldl (fun hh tid => histStep xmin bw hh (xs.getD tid 0)) h := by
        refine foldl_congr_of_inv (fun _ => True) _ _ _ _ trivial (fun _ _ _ => trivial) ?_
        intro hh tid _ htid
        have hlt : tid < xs.length := List.mem_range.mp htid
        rw [List.getD_append _ _ _ _ hlt]
      rw [hcongr, ih]
      have hgetD : (xs ++ [a]).getD xs.length 0 = a := by
        rw [List.getD_append_right _ _ _ _ (le_refl _)]
        simp
      simp only [List.foldl_cons, List.foldl_nil, hgetD]

theorem cuda_histogram_run_eq_cpu (x : List ℚ) (xmin xmax : ℚ) (histogram_out : List ℤ)
    (gridsize : ℕ) (hgrid : x.length ≤ gridsize) :
    cuda_histogram_run x xmin xmax histogram_out gridsize =
      cpu_histogram x xmin xmax histogram_out := by
  unfold cuda_histogram_run cpu_histogram
  dsimp only
  obtain ⟨m, rfl⟩ : ∃ m, gridsize = x.length + m := ⟨gridsize - x.length, by omega⟩
  rw [List.range_add, List.foldl_append]
  have htail : ∀ (bb : List ℤ) (tid : ℕ),
      tid ∈ (List.range m).map (fun k => x.length + k) →
      cuda_histogram_thread x xmin xmax bb tid = bb := by
    intro bb tid htid
    obtain ⟨k, _, rfl⟩ := List.mem_map.mp htid
    exact cuda_histogram_thread_ge _ _ _ _ _ (by omega)
  rw [foldl_fix _ _ _ htail]
  have hconv : (List.range x.length).foldl (cuda_histogram_thread x xmin xmax) histogram_out =
      (List.range x.length).foldl
        (fun hh tid => histStep xmin ((xmax - xmin) / (histogram_out.length : ℚ)) hh (x.getD tid 0))
        histogram_out := by
    refine foldl_congr_of_inv (fun hh => hh.length = histogram_out.length) _ _ _ _ rfl ?_ ?_
    · intro bb tid hbb
      rw [cuda_histogram_thread_length]
      exact hbb
    · intro bb tid hbb htid
      rw [cuda_histogram_thread_lt _ _ _ _ _ (List.mem_range.mp htid), hbb]
  rw [hconv, foldl_range_histStep]

/-- C10: whenever the launched grid has at least `x.length` threads and the
atomic additions are modelled as sequential increments, `cuda_histogram`
produces exactly the same final histogram as `cpu_histogram` on the same
inputs. -/
theorem C10_cuda_histogram_refines_cpu (x : List ℚ) (xmin xmax : ℚ)
    (histogram_out : List ℤ) (gridsize : ℕ) (hrange : xmin < xmax)
    (hgrid : x.length ≤ gridsize) :
    cuda_histogram_run x xmin xmax histogram_out gridsize =
      cpu_histogram x xmin xmax histogram_out :=
  cuda_histogram_run_eq_cpu x xmin xmax histogram_out gridsize hgrid

/-- C10 witness: a three-thread grid over a two-element input. -/
theorem C10_cuda_histogram_refines_cpu_witness :
    cuda_histogram_run [1/2, 5] 0 4 [0, 0, 0, 0] 3 =
      cpu_histogram [1/2, 5] 0 4 [0, 0, 0, 0] :=
  C10_cuda_histogram_refines_cpu [1/2, 5] 0 4 [0, 0, 0, 0] 3 (by norm_num) (by decide)

/-! ## Vector addition kernel (CUDA kernels notebook) -/

/-- Python `range(start, stop, step)` for a positive step, implemented with
explicit fuel (`stop` iterations always suffice when `1 ≤ step`). -/
def rangeStepAux : ℕ → ℕ → ℕ → ℕ → List ℕ
  | 0, _, _, _ => []
  | fuel + 1, start, stop, step =>
    if start < stop then start :: rangeStepAux fuel (start + step) stop step else []

/-- Python `range(start, stop, step)` for a positive step. -/
def rangeStep (start stop step : ℕ) : List ℕ :=
  rangeStepAux stop start stop step

/-- Source `add_kernel`: the thread with offsets `start = cuda.grid(1)` and
`stride = cuda.gridsize(1)` runs
`for i in range(start, x.shape[0], stride): out[i] = x[i] + y[i]`. -/
def add_kernel (x y out : List ℚ) (start stride : ℕ) : List ℚ :=
  (rangeStep start x.length stride).foldl
    (fun o i => o.set i (x.getD i 0 + y.getD i 0)) out

/-- Launch of `add_kernel` over every thread of a grid with
`stride = block_size * grid_size` total threads, i.e. all starting
offsets `0 ≤ start < stride`. -/
def add_kernel_run (x y out : List ℚ) (stride : ℕ) : List ℚ :=
  (List.range stride).foldl (fun o start => add_kernel x y o start stride) out

theorem mem_rangeStepAux (step : ℕ) (hstep : 1 ≤ step) :
    ∀ (fuel start stop i : ℕ), stop - start ≤ fuel →
      (i ∈ rangeStepAux fuel start stop step ↔
        start ≤ i ∧ i < stop ∧ ∃ k, i = start + step * k) := by
  intro fuel
  induction fuel with
  | zero =>
      intro start stop i hfuel
      simp only [rangeStepAux, List.not_mem_nil, false_iff]
      omega
  | succ fuel ih =>
      intro start stop i hfuel
      simp only [rangeStepAux]
      by_cases hlt : start < stop
      · rw [if_pos hlt]
        simp only [List.mem_cons]
        rw [ih (start + step) stop i (by omega)]
        constructor
        · rintro (rfl | ⟨hle, hstop, k, rfl⟩)
          · exact ⟨le_refl _, hlt, 0, by ring⟩
          · exact ⟨by omega, hstop, k + 1, by ring⟩
        · rintro ⟨hle, hstop, k, rfl⟩
          match k with
          | 0 => exact Or.inl (by ring)
          | k + 1 =>
              refine Or.inr ⟨by nlinarith, hstop, k, by ring⟩
      · rw [if_neg hlt]
        simp only [List.not_mem_nil, false_iff]
        omega

theorem mem_rangeStep (start stop step i : ℕ) (hstep : 1 ≤ step) :
    i ∈ rangeStep start stop step ↔
      start ≤ i ∧ i < stop ∧ ∃ k, i = start + step * k :=
  mem_rangeStepAux step hstep stop start stop i (by omega)

theorem mem_rangeStep_iff_mod (start n stride i : ℕ) (hstride : 1 ≤ stride)
    (hstart : start < stride) :
    i ∈ rangeStep start n stride ↔ i < n ∧ i % stride = start := by
  rw [mem_rangeStep _ _ _ _ hstride]
  constructor
  · rintro ⟨hle, hn, k, rfl⟩
    exact ⟨hn, by rw [Nat.add_mul_mod_self_left]; exact Nat.mod_eq_of_lt hstart⟩
  · rintro ⟨hn, hmod⟩
    refine ⟨hmod ▸ Nat.mod_le i stride, hn, i / stride, ?_⟩
    rw [← hmod]
    exact (Nat.mod_add_div i stride).symm

theorem foldl_set_length (f : ℕ → ℚ) (idxs : List ℕ) (out : List ℚ) :
    (idxs.foldl (fun o j => o.set j (f j)) out).length = out.length := by
  induction idxs generalizing out with
  | nil => rfl
  | cons j rest ih => rw [List.foldl_cons, ih, List.length_set]

theorem foldl_set_getD (f : ℕ → ℚ) (idxs : List ℕ) (out : List ℚ) (i : ℕ) :
    (idxs.foldl (fun o j => o.set j (f j)) out).getD i 0 =
      if i ∈ idxs ∧ i < out.length then f i else out.getD i 0 := by
  induction idxs generalizing out with
  | nil => simp
  | cons j rest ih =>
      rw [List.foldl_cons, ih, List.length_set]
      by_cases hmem : i ∈ rest
      · by_cases hlen : i < out.length
        · rw [if_pos ⟨hmem, hlen⟩, if_pos ⟨by simp [hmem], hlen⟩]
        · rw [if_neg (by tauto), if_neg (by tauto),
            List.getD_eq_default _ _ (by simpa using by omega),
            List.getD_eq_default _ _ (by omega)]
      · rw [if_neg (by tauto)]
        by_cases hij : i = j
        · subst hij
          by_cases hlen : i < out.length
          · rw [if_pos ⟨by simp, hlen⟩]
            have hset : i < (out.set i (f i)).length := by simpa using hlen
            rw [List.getD_eq_getElem _ _ hset, List.getElem_set, if_pos rfl]
          · rw [if_neg (by tauto), List.getD_eq_default _ _ (by simpa using by omega),
              List.getD_eq_default _ _ (by omega)]
        · have hnot : ¬ (i ∈ j :: rest ∧ i < out.length) := by
            simp only [List.mem_cons]
            tauto
          rw [if_neg hnot]
          by_cases hlen : i < out.length
          · have hset : i < (out.set j (f j)).length := by simpa using hlen
            rw [List.getD_eq_getElem _ _ hset, List.getD_eq_getElem _ _ hlen,
              List.getElem_set, if_neg (by omega)]
          · rw [List.getD_eq_default _ _ (by simpa using by omega),
              List.getD_eq_default _ _ (by omega)]

theorem add_kernel_run_eq_flatten (x y out : List ℚ) (stride : ℕ) :
    add_kernel_run x y out stride =
      (((List.range stride).map (fun s => rangeStep s x.length stride)).flatten).foldl
        (fun o i => o.set i (x.getD i 0 + y.getD i 0)) out := by
  unfold add_kernel_run add_kernel
  rw [List.foldl_flatten, List.foldl_map]

/-- C2: executing `add_kernel` for all threads of a grid with
`stride = block_size * grid_size` total threads sets
`out[i] = x[i] + y[i]` for every index `i < x.length`, and each output
index `i` is visited by exactly one thread: the one whose starting offset
is `i % stride`, so distinct threads write disjoint output elements. -/
theorem C2_add_kernel_spec (x y out : List ℚ) (stride : ℕ)
    (hstride : 1 ≤ stride) (hy : y.length = x.length) (hout : out.length = x.length) :
    (∀ i, i < x.length →
      (add_kernel_run x y out stride).getD i 0 = x.getD i 0 + y.getD i 0) ∧
    (∀ i, i < x.length → ∀ start, start < stride →
      (i ∈ rangeStep start x.length stride ↔ start = i % stride)) := by
  constructor
  · intro i hi
    have hmem : i ∈ ((List.range stride).map (fun s => rangeStep s x.length stride)).flatten := by
      rw [List.mem_flatten]
      refine ⟨rangeStep (i % stride) x.length stride,
        List.mem_map.mpr ⟨i % stride, List.mem_range.mpr (Nat.mod_lt _ (by omega)), rfl⟩, ?_⟩
      rw [mem_rangeStep_iff_mod _ _ _ _ hstride (Nat.mod_lt _ (by omega))]
      exact ⟨hi, rfl⟩
    rw [add_kernel_run_eq_flatten, foldl_set_getD, if_pos ⟨hmem, by omega⟩]
  · intro i hi start hstart
    rw [mem_rangeStep_iff_mod _ _ _ _ hstride hstart]
    constructor
    · rintro ⟨-, h⟩
      exact h.symm
    · intro h
      exact ⟨hi, h.symm⟩

/-- C2 witness: three elements added by a two-thread grid. -/
theorem C2_add_kernel_spec_witness :
    (add_kernel_run [1, 2, 3] [10, 20, 30] [0, 0, 0] 2).getD 0 0 =
      ([1, 2, 3] : List ℚ).getD 0 0 + ([10, 20, 30] : List ℚ).getD 0 0 :=
  (C2_add_kernel_spec [1, 2, 3] [10, 20, 30] [0, 0, 0] 2
    (by decide) (by decide) (by decide)).1 0 (by decide)

/-! ## Mandelbrot escape count (first notebook) -/

/-- Complex multiplication on pairs `(re, im)` of rationals. -/
def cmul (a b : ℚ × ℚ) : ℚ × ℚ :=
  (a.1 * b.1 - a.2 * b.2, a.1 * b.2 + a.2 * b.1)

/-- Complex addition on pairs `(re, im)` of rationals. -/
def cadd (a b : ℚ × ℚ) : ℚ × ℚ :=
  (a.1 + b.1, a.2 + b.2)

/-- Squared modulus `z.real * z.real + z.imag * z.imag`. -/
def normSq2 (z : ℚ × ℚ) : ℚ :=
  z.1 * z.1 + z.2 * z.2

/-- Loop of `mandelbrot`: starting at loop index `i` with `rem` iterations
left, repeat `z = z * z + c`, returning `i` as soon as `|z|^2 >= 4` right
after the update and 255 if the iterations run out. -/
def mandelLoop (c : ℚ × ℚ) : ℚ × ℚ → ℕ → ℕ → ℕ
  | _, _, 0 => 255
  | z, i, rem + 1 =>
    let z2 := cadd (cmul z z) c
    if 4 ≤ normSq2 z2 then i else mandelLoop c z2 (i + 1) rem

/-- Source `mandelbrot` (the same body appears as `mandelbrot_cpu` and
`mandelbrot_gpu`): `c = complex(x, y)`, `z = 0`, loop `max_iters` times. -/
def mandelbrot (x y : ℚ) (max_iters : ℕ) : ℕ :=
  mandelLoop (x, y) (0, 0) 0 max_iters

/-- Orbit of the Mandelbrot iterate: `zseq c 0 = 0` and
`zseq c (k+1) = zseq c k * zseq c k + c`. -/
def zseq (c : ℚ × ℚ) : ℕ → ℚ × ℚ
  | 0 => (0, 0)
  | k + 1 => cadd (cmul (zseq c k) (zseq c k)) c

/-- Escape predicate: the iterate reaches `|z|^2 >= 4` immediately after
the update performed at loop index `i`. -/
def escapesAt (c : ℚ × ℚ) (i : ℕ) : Prop :=
  4 ≤ normSq2 (zseq c (i + 1))

instance escapesAt.instDecidable (c : ℚ × ℚ) (i : ℕ) : Decidable (escapesAt c i) := by
  unfold escapesAt
  infer_instance

theorem mandelLoop_spec (c : ℚ × ℚ) (rem i : ℕ) :
    mandelLoop c (zseq c i) i rem =
      if h : ∃ k, k < rem ∧ escapesAt c (i + k) then i + Nat.find h else 255 := by
  induction rem generalizing i with
  | zero =>
      rw [dif_neg]
      · rfl
      · rintro ⟨k, hk, -⟩
        omega
  | succ rem ih =>
      have hz2 : cadd (cmul (zseq c i) (zseq c i)) c = zseq c (i + 1) := rfl
      simp only [mandelLoop]
      rw [hz2]
      by_cases h0 : 4 ≤ normSq2 (zseq c (i + 1))
      · rw [if_pos h0]
        have hex : ∃ k, k < rem + 1 ∧ escapesAt c (i + k) := ⟨0, by omega, by
          show 4 ≤ normSq2 (zseq c (i + 0 + 1))
          simpa using h0⟩
        rw [dif_pos hex]
        have hfind : Nat.find hex = 0 := by
          rw [Nat.find_eq_zero]
          exact ⟨by omega, by
            show 4 ≤ normSq2 (zseq c (i + 0 + 1))
            simpa using h0⟩
        omega
      · rw [if_neg h0, ih (i + 1)]
        by_cases hex2 : ∃ k, k < rem ∧ escapesAt c (i + 1 + k)
        · rw [dif_pos hex2]
          have hex : ∃ k, k < rem + 1 ∧ escapesAt c (i + k) := by
            obtain ⟨k0, hk0, hesc0⟩ := hex2
            refine ⟨k0 + 1, by omega, ?_⟩
            have hidx : i + (k0 + 1) = i + 1 + k0 := by omega
            rw [escapesAt, hidx]
            exact hesc0
          rw [dif_pos hex]
          have hspec := Nat.find_spec hex2
          have hfind : Nat.find hex = Nat.find hex2 + 1 := by
            rw [Nat.find_eq_iff]
            constructor
            · refine ⟨by omega, ?_⟩
              have hidx : i + (Nat.find hex2 + 1) = i + 1 + Nat.find hex2 := by omega
              rw [escapesAt, hidx]
              exact hspec.2
            · intro m hm
              cases m with
              | zero =>
                  rintro ⟨-, hesc⟩
                  apply h0
                  have h00 : 0 + 1 = 1 := rfl
                  rw [escapesAt] at hesc
                  have hidx : i + 0 + 1 = i + 1 := by omega
                  rw [hidx] at hesc
                  exact hesc
              | succ m =>
                  rintro ⟨hmlt, hesc⟩
                  refine Nat.find_min hex2 (show m < Nat.find hex2 by omega) ⟨by omega, ?_⟩
                  have hidx : i + 1 + m = i + (m + 1) := by omega
                  rw [escapesAt, hidx]
                  exact hesc
          omega
        · rw [dif_neg hex2, dif_neg]
          rintro ⟨k, hk, hesc⟩
          cases k with
          | zero =>
              apply h0
              rw [escapesAt] at hesc
              have hidx : i + 0 + 1 = i + 1 := by omega
              rw [hidx] at hesc
              exact hesc
          | succ k =>
              refine hex2 ⟨k, by omega, ?_⟩
              have hidx : i + 1 + k = i + (k + 1) := by omega
              rw [escapesAt, hidx]
              exact hesc

/-- C3: `mandelbrot x y max_iters` returns the first loop index
`i < max_iters` at which the iterate `z` (starting from 0 and updated as
`z = z*z + c` with `c = (x, y)`) satisfies `|z|^2 >= 4` immediately after
the update, and returns 255 when no such index below `max_iters`
exists. -/
theorem C3_mandelbrot_escape (x y : ℚ) (max_iters : ℕ) :
    mandelbrot x y max_iters =
      if h : ∃ i, i < max_iters ∧ escapesAt (x, y) i then Nat.find h else 255 := by
  have hmain := mandelLoop_spec (x, y) max_iters 0
  simp only [Nat.zero_add] at hmain
  by_cases hex : ∃ i, i < max_iters ∧ escapesAt (x, y) i
  · rw [dif_pos hex]
    rw [show mandelbrot x y max_iters = mandelLoop (x, y) (zseq (x, y) 0) 0 max_iters from rfl,
      mandelLoop_spec]
    have hex0 : ∃ k, k < max_iters ∧ escapesAt (x, y) (0 + k) := by
      simpa using hex
    rw [dif_pos hex0]
    have : Nat.find hex0 = Nat.find hex := by
      rw [Nat.find_eq_iff]
      have hspec := Nat.find_spec hex
      refine ⟨⟨hspec.1, by simpa using hspec.2⟩, ?_⟩
      intro m hm hcon
      exact Nat.find_min hex hm ⟨hcon.1, by simpa using hcon.2⟩
    omega
  · rw [dif_neg hex]
    rw [show mandelbrot x y max_iters = mandelLoop (x, y) (zseq (x, y) 0) 0 max_iters from rfl,
      mandelLoop_spec]
    rw [dif_neg]
    rintro ⟨k, hk, hesc⟩
    exact hex ⟨k, hk, by simpa using hesc⟩

/-! ## Monte Carlo pi estimate (session-3 porting notebook) -/

/-- Source `compute_pi` thread body: thread `tid` draws `iterations` pairs
`(x, y)` from its RNG stream (`rng tid n` models the value produced by the
n-th call to `xoroshiro128p_uniform_float32(rng_states, tid)` made by
thread `tid`), counts the pairs inside the unit circle, and produces
`4.0 * inside / iterations`. -/
def compute_pi_thread (rng : ℕ → ℕ → ℚ) (iterations tid : ℕ) : ℚ :=
  let inside : ℕ := (List.range iterations).foldl (fun inside i =>
    let x := rng tid (2 * i)
    let y := rng tid (2 * i + 1)
    if x ^ 2 + y ^ 2 ≤ 1 then inside + 1 else inside) 0
  4 * (inside : ℚ) / (iterations : ℚ)

/-- Launch of `compute_pi` over a grid of `grid` threads, thread `tid`
writing `out[tid]`. -/
def compute_pi_run (rng : ℕ → ℕ → ℚ) (iterations : ℕ) (out : List ℚ)
    (grid : ℕ) : List ℚ :=
  (List.range grid).foldl
    (fun o tid => o.set tid (compute_pi_thread rng iterations tid)) out

theorem foldl_count_eq_countP (p : ℕ → Prop) [DecidablePred p] (l : List ℕ) (acc : ℕ) :
    l.foldl (fun c a => if p a then c + 1 else c) acc = acc + l.countP (fun a => p a) := by
  induction l generalizing acc with
  | nil => simp
  | cons a l ih =>
      rw [List.foldl_cons, ih, List.countP_cons]
      by_cases hp : p a
      · simp only [hp, if_pos, decide_eq_true_eq, if_true]
        omega
      · simp only [hp, if_neg, decide_eq_true_eq, if_false, not_false_iff]
        omega

/-- C6: every grid thread `tid` writes `out[tid] = 4 * inside / iterations`,
where `inside` counts the thread's drawn pairs `(x, y)` with
`x^2 + y^2 <= 1`; since `0 <= inside <= iterations`, every written entry
lies in `[0, 4]`. -/
theorem C6_compute_pi_spec (rng : ℕ → ℕ → ℚ) (iterations : ℕ) (out : List ℚ)
    (grid tid : ℕ) (hiter : 1 ≤ iterations) (htid : tid < grid)
    (hout : tid < out.length) :
    (compute_pi_run rng iterations out grid).getD tid 0 =
      4 * ((List.range iterations).countP (fun i =>
        rng tid (2 * i) ^ 2 + rng tid (2 * i + 1) ^ 2 ≤ 1) : ℚ) / (iterations : ℚ) ∧
    0 ≤ (compute_pi_run rng iterations out grid).getD tid 0 ∧
    (compute_pi_run rng iterations out grid).getD tid 0 ≤ 4 := by
  have hrun : (compute_pi_run rng iterations out grid).getD tid 0 =
      compute_pi_thread rng iterations tid := by
    unfold compute_pi_run
    rw [foldl_set_getD, if_pos ⟨List.mem_range.mpr htid, hout⟩]
  have hthread : compute_pi_thread rng iterations tid =
      4 * ((List.range iterations).countP (fun i =>
        rng tid (2 * i) ^ 2 + rng tid (2 * i + 1) ^ 2 ≤ 1) : ℚ) / (iterations : ℚ) := by
    unfold compute_pi_thread
    dsimp only
    rw [foldl_count_eq_countP
      (fun i => rng tid (2 * i) ^ 2 + rng tid (2 * i + 1) ^ 2 ≤ 1)]
    simp
  have hcount : (List.range iterations).countP (fun i =>
      rng tid (2 * i) ^ 2 + rng tid (2 * i + 1) ^ 2 ≤ 1) ≤ iterations := by
    have := List.countP_le_length (fun i =>
      decide (rng tid (2 * i) ^ 2 + rng tid (2 * i + 1) ^ 2 ≤ 1))
      (l := List.range iterations)
    simpa using this
  have hpos : (0 : ℚ) < (iterations : ℚ) := by
    exact_mod_cast hiter
  refine ⟨hrun.trans hthread, ?_, ?_⟩
  · rw [hrun, hthread]
    positivity
  · rw [hrun, hthread, div_le_iff hpos]
    have hc : ((List.range iterations).countP (fun i =>
        rng tid (2 * i) ^ 2 + rng tid (2 * i + 1) ^ 2 ≤ 1) : ℚ) ≤ (iterations : ℚ) := by
      exact_mod_cast hcount
    nlinarith

/-- C6 witness: a two-iteration run with the constant-zero RNG stream on a
one-thread grid. -/
theorem C6_compute_pi_spec_witness :
    0 ≤ (compute_pi_run (fun _ _ => 0) 2 [0] 1).getD 0 0 ∧
    (compute_pi_run (fun _ _ => 0) 2 [0] 1).getD 0 0 ≤ 4 :=
  ⟨(C6_compute_pi_spec (fun _ _ => 0) 2 [0] 1 0 (by decide) (by decide) (by decide)).2.1,
   (C6_compute_pi_spec (fun _ _ => 0) 2 [0] 1 0 (by decide) (by decide) (by decide)).2.2⟩

/-! ## Thread counter: atomic versus racy increments (CUDA kernels notebook) -/

/-- Source `thread_counter_safe` under an interleaving: each thread
performs one `cuda.atomic.add(global_counter, 0, 1)`, a single indivisible
read-modify-write, so an interleaving is just an ordering of the thread
ids and each event increments the counter by one. -/
def runSafe (sched : List ℕ) (counter : ℤ) : ℤ :=
  sched.foldl (fun c _ => c + 1) counter

/-- Event of the racy `thread_counter_race_condition`: the increment
`global_counter[0] += 1` decomposes into a read of the counter into a
thread-local register and a separately scheduled write of
`register + 1`. -/
inductive RaceEv where
  | read (tid : ℕ)
  | write (tid : ℕ)
deriving DecidableEq

/-- One step of the racy execution on the state (shared counter, per-thread
registers): a read stores the counter in the thread's register, a write
stores `register + 1` back into the counter. -/
def raceStep (s : ℤ × List ℤ) (e : RaceEv) : ℤ × List ℤ :=
  match e with
  | .read tid => (s.1, s.2.set tid s.1)
  | .write tid => (s.2.getD tid 0 + 1, s.2)

/-- Run the racy kernel under an interleaving `sched` of its events. -/
def runRace (sched : List RaceEv) (s : ℤ × List ℤ) : ℤ × List ℤ :=
  sched.foldl raceStep s

/-- The events of a launch of `N` racy threads listed reads first: one read
and one write per thread.  In this particular order it is also the
"lost update" interleaving in which every thread reads the counter before
any thread writes it back. -/
def raceEvents (N : ℕ) : List RaceEv :=
  (List.range N).map RaceEv.read ++ (List.range N).map RaceEv.write

/-- A schedule is a valid interleaving of the `N`-thread racy launch when
it is a reordering of one read and one write per thread in which each
thread's read precedes its own write. -/
def validRace (N : ℕ) (sched : List RaceEv) : Prop :=
  sched.Perm (raceEvents N) ∧
  ∀ (t : ℕ) (i j : Fin sched.length),
    sched.get i = RaceEv.read t → sched.get j = RaceEv.write t → (i : ℕ) < (j : ℕ)

theorem runSafe_eq (sched : List ℕ) (counter : ℤ) :
    runSafe sched counter = counter + sched.length := by
  induction sched generalizing counter with
  | nil => simp [runSafe]
  | cons t ts ih =>
      rw [runSafe, List.foldl_cons, ← runSafe, ih, List.length_cons]
      push_cast
      ring

theorem raceEvents_length (N : ℕ) : (raceEvents N).length = N + N := by
  simp [raceEvents]

theorem raceEvents_get (N : ℕ) (i : Fin (raceEvents N).length) :
    (raceEvents N).get i =
      if (i : ℕ) < N then RaceEv.read (i : ℕ) else RaceEv.write ((i : ℕ) - N) := by
  have hi : (i : ℕ) < N + N := lt_of_lt_of_eq i.isLt (raceEvents_length N)
  rcases Nat.lt_or_ge (i : ℕ) N with h | h
  · rw [if_pos h, List.get_eq_getElem]
    unfold raceEvents
    rw [List.getElem_append_left (by simpa using h), List.getElem_map, List.getElem_range]
  · rw [if_neg (by omega), List.get_eq_getElem]
    unfold raceEvents
    rw [List.getElem_append_right (by simpa using h), List.getElem_map, List.getElem_range]
    rw [List.length_map, List.length_range]

theorem replicate_set_zero (N tid : ℕ) :
    (List.replicate N (0 : ℤ)).set tid 0 = List.replicate N (0 : ℤ) :=
  List.set_replicate_self

theorem replicate_getD_zero (N tid : ℕ) :
    (List.replicate N (0 : ℤ)).getD tid 0 = 0 := by
  rcases Nat.lt_or_ge tid N with h | h
  · rw [List.getD_eq_getElem _ _ (by simpa using h), List.getElem_replicate]
  · rw [List.getD_eq_default _ _ (by simpa using h)]

theorem runRace_reads (N : ℕ) (ts : List ℕ) :
    runRace (ts.map RaceEv.read) (0, List.replicate N 0) =
      (0, List.replicate N 0) := by
  induction ts with
  | nil => rfl
  | cons t ts ih =>
      rw [List.map_cons, runRace, List.foldl_cons]
      have hstep : raceStep (0, List.replicate N 0) (RaceEv.read t) =
          (0, List.replicate N 0) := by
        simp [raceStep, replicate_set_zero]
      rw [hstep, ← runRace, ih]

theorem runRace_writes (N : ℕ) (ts : List ℕ) (c : ℤ) :
    runRace (ts.map RaceEv.write) (c, List.replicate N 0) =
      (if ts.isEmpty then c else 1, List.replicate N 0) := by
  induction ts generalizing c with
  | nil => rfl
  | cons t ts ih =>
      rw [List.map_cons, runRace, List.foldl_cons]
      have hstep : raceStep (c, List.replicate N 0) (RaceEv.write t) =
          (1, List.replicate N 0) := by
        simp [raceStep, replicate_getD_zero]
      rw [hstep, ← runRace, ih]
      cases ts <;> simp

/-- C4: with each increment an indivisible read-modify-write, every
interleaving of the 64 * 64 = 4096 threads of `thread_counter_safe` drives
the zero-initialized counter to exactly 4096; the decomposed
read-then-write increment of `thread_counter_race_condition` admits a
valid interleaving (all 4096 reads before all writes) that loses updates
and ends with the counter at 1, not 4096. -/
theorem C4_thread_counter_atomic_vs_race :
    (∀ sched : List ℕ, sched.Perm (List.range (64 * 64)) →
      runSafe sched 0 = 64 * 64) ∧
    validRace (64 * 64) (raceEvents (64 * 64)) ∧
    (runRace (raceEvents (64 * 64)) (0, List.replicate (64 * 64) 0)).1 = 1 ∧
    (1 : ℤ) ≠ 64 * 64 := by
  refine ⟨?_, ⟨List.Perm.refl _, ?_⟩, ?_, by norm_num⟩
  · intro sched hperm
    rw [runSafe_eq, hperm.length_eq]
    simp
  · intro t i j hi hj
    rw [raceEvents_get] at hi hj
    by_cases hiN : (i : ℕ) < 64 * 64
    · by_cases hjN : (j : ℕ) < 64 * 64
      · rw [if_pos hjN] at hj
        cases hj
      · omega
    · rw [if_neg hiN] at hi
      cases hi
  · unfold raceEvents
    rw [runRace, List.foldl_append, ← runRace, ← runRace, runRace_reads, runRace_writes]
    simp

/-- C4 witness: the identity interleaving of the safe kernel reaches
4096. -/
theorem C4_thread_counter_atomic_vs_race_witness :
    runSafe (List.range (64 * 64)) 0 = 64 * 64 :=
  C4_thread_counter_atomic_vs_race.1 (List.range (64 * 64)) (List.Perm.refl _)

/-! ## Fractal renderers (first notebook): CPU loop, GPU kernel, ufunc -/

/-- Write the single pixel `image[y][x] = v` (no effect outside the image
bounds). -/
def writePixel (img : List (List ℕ)) (y x v : ℕ) : List (List ℕ) :=
  img.set y ((img.getD y []).set x v)

/-- Source `create_fractal`: `height = image.shape[0]`,
`width = image.shape[1]`, `pixel_size_x = (max_x - min_x)/width`,
`pixel_size_y = (max_y - min_y)/height`, then
`for x in range(width): for y in range(height): image[y, x] =`
`mandelbrot(min_x + x*pixel_size_x, min_y + y*pixel_size_y, iters)`. -/
def create_fractal (min_x max_x min_y max_y : ℚ) (image : List (List ℕ))
    (iters : ℕ) : List (List ℕ) :=
  let height := image.length
  let width := (image.getD 0 []).length
  let pixel_size_x := (max_x - min_x) / (width : ℚ)
  let pixel_size_y := (max_y - min_y) / (height : ℚ)
  (List.range width).foldl (fun img1 (x : ℕ) =>
    let real := min_x + (x : ℚ) * pixel_size_x
    (List.range height).foldl (fun img2 (y : ℕ) =>
      let imag := min_y + (y : ℚ) * pixel_size_y
      let color := mandelbrot real imag iters
      writePixel img2 y x color) img1) image

/-- Source `create_fractal_gpu` thread body at grid position
`(x, y) = cuda.grid(2)`: the same pixel formula as `create_fractal`,
guarded by `x < width and y < height` (the device function
`mandelbrot_gpu` has the same body as `mandelbrot`). -/
def create_fractal_gpu_thread (min_x max_x min_y max_y : ℚ) (iters : ℕ)
    (image : List (List ℕ)) (p : ℕ × ℕ) : List (List ℕ) :=
  let height := image.length
  let width := (image.getD 0 []).length
  let pixel_size_x := (max_x - min_x) / (width : ℚ)
  let pixel_size_y := (max_y - min_y) / (height : ℚ)
  if p.1 < width ∧ p.2 < height then
    writePixel image p.2 p.1
      (mandelbrot (min_x + (p.1 : ℚ) * pixel_size_x)
        (min_y + (p.2 : ℚ) * pixel_size_y) iters)
  else image

/-- Launch of `create_fractal_gpu` over a 2D grid of `gw * gh` threads. -/
def create_fractal_gpu_run (min_x max_x min_y max_y : ℚ) (image : List (List ℕ))
    (iters gw gh : ℕ) : List (List ℕ) :=
  ((List.range gw).product (List.range gh)).foldl
    (create_fractal_gpu_thread min_x max_x min_y max_y iters) image

/-- Source ufunc scalar body
`mandel(tid, min_x, max_x, min_y, max_y, width, height, iters)`:
`x = tid % width` is an integer but `y = tid / width` uses Python true
division, so `y` is a fractional coordinate; the escape loop on
`c = complex(real, imag)` is the same as `mandelbrot`. -/
def mandel (tid : ℕ) (min_x max_x min_y max_y : ℚ) (width height iters : ℕ) : ℕ :=
  let pixel_size_x := (max_x - min_x) / (width : ℚ)
  let pixel_size_y := (max_y - min_y) / (height : ℚ)
  let x : ℕ := tid % width
  let y : ℚ := (tid : ℚ) / (width : ℚ)
  let real := min_x + (x : ℚ) * pixel_size_x
  let imag := min_y + y * pixel_size_y
  mandelbrot real imag iters

/-- Source `create_fractal_ufunc`: broadcasts `mandel` over the thread ids
`0 .. width*height - 1`.  The source call site reads
`mandel(tids, min_x, max_x, min_y, max_y, np.uint32(height), np.uint32(width), iters)`,
i.e. it passes the image height as the `width` argument of `mandel` and
the image width as its `height` argument. -/
def create_fractal_ufunc (min_x max_x min_y max_y : ℚ) (width height iters : ℕ) :
    List ℕ :=
  (List.range (width * height)).map
    (fun tid => mandel tid min_x max_x min_y max_y height width iters)

/-- Pixel coordinates visited by the sequential loops of `create_fractal`,
as the flattened list of `(x, y)` pairs in loop order. -/
def cpuPairs (w h : ℕ) : List (ℕ × ℕ) :=
  ((List.range w).map (fun x => (List.range h).map (fun y => (x, y)))).flatten

theorem getD_set_general {α : Type} (l : List α) (i j : ℕ) (a d : α) :
    (l.set j a).getD i d = if i = j ∧ j < l.length then a else l.getD i d := by
  rcases Nat.lt_or_ge i l.length with hi | hi
  · have hi2 : i < (l.set j a).length := by simpa using hi
    rw [List.getD_eq_getElem _ _ hi2, List.getElem_set]
    by_cases hij : j = i
    · subst hij
      rw [if_pos rfl, if_pos ⟨rfl, hi⟩]
    · rw [if_neg hij, if_neg (fun hcon => hij hcon.1.symm), List.getD_eq_getElem _ _ hi]
  · rw [List.getD_eq_default _ _ (by simpa using hi), List.getD_eq_default _ _ hi,
      if_neg (by omega)]

theorem writePixel_length (img : List (List ℕ)) (y x v : ℕ) :
    (writePixel img y x v).length = img.length := by
  simp [writePixel]

theorem writePixel_row_length (img : List (List ℕ)) (y x v r : ℕ) :
    ((writePixel img y x v).getD r []).length = (img.getD r []).length := by
  unfold writePixel
  rw [getD_set_general]
  by_cases h : r = y ∧ y < img.length
  · rw [if_pos h, List.length_set]
    rcases h with ⟨rfl, -⟩
    rfl
  · rw [if_neg h]

theorem writePixel_getD (img : List (List ℕ)) (y x v r c : ℕ) :
    ((writePixel img y x v).getD r []).getD c 0 =
      if r = y ∧ c = x ∧ y < img.length ∧ x < (img.getD y []).length then v
      else (img.getD r []).getD c 0 := by
  unfold writePixel
  rw [getD_set_general]
  by_cases hout : r = y ∧ y < img.length
  · rw [if_pos hout]
    rw [getD_set_general]
    rcases hout with ⟨rfl, hy⟩
    by_cases hin : c = x ∧ x < (img.getD r []).length
    · rw [if_pos hin, if_pos ⟨rfl, hin.1, hy, hin.2⟩]
    · rw [if_neg hin, if_neg (by tauto)]
  · rw [if_neg hout, if_neg (by tauto)]

theorem foldl_gwp_length (f : ℕ × ℕ → ℕ) (g : ℕ × ℕ → Prop) [DecidablePred g]
    (ps : List (ℕ × ℕ)) (img : List (List ℕ)) :
    (ps.foldl (fun im p => if g p then writePixel im p.2 p.1 (f p) else im) img).length =
      img.length := by
  induction ps generalizing img with
  | nil => rfl
  | cons p rest ih =>
      rw [List.foldl_cons, ih]
      by_cases hg : g p
      · rw [if_pos hg, writePixel_length]
      · rw [if_neg hg]

theorem foldl_gwp_row_length (f : ℕ × ℕ → ℕ) (g : ℕ × ℕ → Prop) [DecidablePred g]
    (ps : List (ℕ × ℕ)) (img : List (List ℕ)) (r : ℕ) :
    ((ps.foldl (fun im p => if g p then writePixel im p.2 p.1 (f p) else im) img).getD r []).length =
      (img.getD r []).length := by
  induction ps generalizing img with
  | nil => rfl
  | cons p rest ih =>
      rw [List.foldl_cons, ih]
      by_cases hg : g p
      · rw [if_pos hg, writePixel_row_length]
      · rw [if_neg hg]

theorem foldl_gwp_getD (f : ℕ × ℕ → ℕ) (g : ℕ × ℕ → Prop) [DecidablePred g]
    (ps : List (ℕ × ℕ)) (img : List (List ℕ)) (r c : ℕ) :
    ((ps.foldl (fun im p => if g p then writePixel im p.2 p.1 (f p) else im) img).getD r []).getD c 0 =
      if ((c, r) ∈ ps ∧ g (c, r)) ∧ r < img.length ∧ c < (img.getD r []).length then f (c, r)
      else (img.getD r []).getD c 0 := by
  induction ps generalizing img with
  | nil => simp
  | cons p rest ih =>
      obtain ⟨px, py⟩ := p
      rw [List.foldl_cons, ih]
      by_cases hg : g (px, py)
      · rw [if_pos hg, writePixel_length, writePixel_row_length, writePixel_getD]
        by_cases hA : ((c, r) ∈ rest ∧ g (c, r)) ∧ r < img.length ∧ c < (img.getD r []).length
        · rw [if_pos hA, if_pos ⟨⟨List.mem_cons_of_mem _ hA.1.1, hA.1.2⟩, hA.2⟩]
        · rw [if_neg hA]
          by_cases hB : r = py ∧ c = px ∧ py < img.length ∧ px < (img.getD py []).length
          · obtain ⟨hry, hcx, hylen, hxlen⟩ := hB
            have hmem : ((c, r) : ℕ × ℕ) ∈ (px, py) :: rest := by
              rw [hcx, hry]
              exact List.mem_cons_self _ _
            have hgcr : g (c, r) := by
              rw [hcx, hry]
              exact hg
            have hbr : r < img.length := by
              rw [hry]
              exact hylen
            have hbc : c < (img.getD r []).length := by
              rw [hcx, hry]
              exact hxlen
            rw [if_pos ⟨hry, hcx, hylen, hxlen⟩, if_pos ⟨⟨hmem, hgcr⟩, hbr, hbc⟩]
            rw [hcx, hry]
          · rw [if_neg hB]
            rw [if_neg]
            rintro ⟨⟨hmem, hgcr⟩, hbr, hbc⟩
            rcases List.mem_cons.mp hmem with heq | hmem2
            · have hpx : px = c := congrArg Prod.fst heq.symm
              have hpy : py = r := congrArg Prod.snd heq.symm
              subst hpx
              subst hpy
              exact hB ⟨rfl, rfl, hbr, hbc⟩
            · exact hA ⟨⟨hmem2, hgcr⟩, hbr, hbc⟩
      · rw [if_neg hg]
        by_cases hA : ((c, r) ∈ rest ∧ g (c, r)) ∧ r < img.length ∧ c < (img.getD r []).length
        · rw [if_pos hA, if_pos ⟨⟨List.mem_cons_of_mem _ hA.1.1, hA.1.2⟩, hA.2⟩]
        · rw [if_neg hA, if_neg]
          rintro ⟨⟨hmem, hgcr⟩, hbr, hbc⟩
          rcases List.mem_cons.mp hmem with heq | hmem2
          · have hpx : px = c := congrArg Prod.fst heq.symm
            have hpy : py = r := congrArg Prod.snd heq.symm
            subst hpx
            subst hpy
            exact hg hgcr
          · exact hA ⟨⟨hmem2, hgcr⟩, hbr, hbc⟩

theorem mem_cpuPairs (w h c r : ℕ) : ((c, r) ∈ cpuPairs w h) ↔ c < w ∧ r < h := by
  unfold cpuPairs
  rw [List.mem_flatten]
  constructor
  · rintro ⟨l, hl, hmem⟩
    obtain ⟨x, hx, rfl⟩ := List.mem_map.mp hl
    obtain ⟨y, hy, heq⟩ := List.mem_map.mp hmem
    have hxc : x = c := congrArg Prod.fst heq
    have hyr : y = r := congrArg Prod.snd heq
    subst hxc
    subst hyr
    exact ⟨List.mem_range.mp hx, List.mem_range.mp hy⟩
  · rintro ⟨hc, hr⟩
    exact ⟨(List.range h).map (fun y => (c, y)),
      List.mem_map.mpr ⟨c, List.mem_range.mpr hc, rfl⟩,
      List.mem_map.mpr ⟨r, List.mem_range.mpr hr, rfl⟩⟩

theorem create_fractal_eq_fold (min_x max_x min_y max_y : ℚ) (image : List (List ℕ))
    (iters : ℕ) :
    create_fractal min_x max_x min_y max_y image iters =
      (cpuPairs (image.getD 0 []).length image.length).foldl
        (fun im p => if (fun _ : ℕ × ℕ => True) p then writePixel im p.2 p.1
          (mandelbrot
            (min_x + (p.1 : ℚ) * ((max_x - min_x) / (((image.getD 0 []).length : ℕ) : ℚ)))
            (min_y + (p.2 : ℚ) * ((max_y - min_y) / ((image.length : ℕ) : ℚ))) iters)
          else im) image := by
  unfold create_fractal cpuPairs
  rw [List.foldl_flatten]
  simp only [List.foldl_map]
  rfl

theorem create_fractal_gpu_run_eq_fold (min_x max_x min_y max_y : ℚ)
    (image : List (List ℕ)) (iters gw gh : ℕ) :
    create_fractal_gpu_run min_x max_x min_y max_y image iters gw gh =
      ((List.range gw).product (List.range gh)).foldl
        (fun im p => if p.1 < (image.getD 0 []).length ∧ p.2 < image.length then
          writePixel im p.2 p.1
            (mandelbrot
              (min_x + (p.1 : ℚ) * ((max_x - min_x) / (((image.getD 0 []).length : ℕ) : ℚ)))
              (min_y + (p.2 : ℚ) * ((max_y - min_y) / ((image.length : ℕ) : ℚ))) iters)
          else im) image := by
  unfold create_fractal_gpu_run
  refine foldl_congr_of_inv
    (fun im => im.length = image.length ∧
      ∀ rr, (im.getD rr []).length = (image.getD rr []).length)
    _ _ _ _ ⟨rfl, fun _ => rfl⟩ ?_ ?_
  · rintro im p ⟨hlen, hrow⟩
    unfold create_fractal_gpu_thread
    dsimp only
    by_cases hgp : p.1 < (im.getD 0 []).length ∧ p.2 < im.length
    · rw [if_pos hgp]
      exact ⟨by rw [writePixel_length]; exact hlen,
        fun rr => by rw [writePixel_row_length]; exact hrow rr⟩
    · rw [if_neg hgp]
      exact ⟨hlen, hrow⟩
  · rintro im p ⟨hlen, hrow⟩ hp
    unfold create_fractal_gpu_thread
    dsimp only
    rw [hlen, hrow 0]

/-- C5 (amended): for the same viewport, image and iteration count, the
sequential renderer `create_fractal` and the GPU renderer
`create_fractal_gpu` executed over a grid covering every pixel produce the
same image, pixel for pixel; the ufunc renderer `create_fractal_ufunc`
does NOT agree with them in general (see the counterexample), because its
call site swaps the width and height arguments of `mandel` and `mandel`
computes its row coordinate `y = tid / width` with true division. -/
theorem C5_fractal_cpu_gpu_agree (min_x max_x min_y max_y : ℚ)
    (image : List (List ℕ)) (iters gw gh : ℕ)
    (hrect : ∀ row ∈ image, row.length = (image.getD 0 []).length)
    (hgw : (image.getD 0 []).length ≤ gw) (hgh : image.length ≤ gh) :
    (create_fractal_gpu_run min_x max_x min_y max_y image iters gw gh).length =
      (create_fractal min_x max_x min_y max_y image iters).length ∧
    (∀ r : ℕ,
      ((create_fractal_gpu_run min_x max_x min_y max_y image iters gw gh).getD r []).length =
        ((create_fractal min_x max_x min_y max_y image iters).getD r []).length) ∧
    (∀ r c : ℕ, r < image.length → c < (image.getD r []).length →
      ((create_fractal_gpu_run min_x max_x min_y max_y image iters gw gh).getD r []).getD c 0 =
        ((create_fractal min_x max_x min_y max_y image iters).getD r []).getD c 0) := by
  rw [create_fractal_eq_fold, create_fractal_gpu_run_eq_fold]
  refine ⟨?_, ?_, ?_⟩
  · rw [foldl_gwp_length, foldl_gwp_length]
  · intro r
    rw [foldl_gwp_row_length, foldl_gwp_row_length]
  · intro r c hr hc
    have hrowW : (image.getD r []).length = (image.getD 0 []).length := by
      rw [List.getD_eq_getElem _ _ hr]
      exact hrect _ (List.getElem_mem hr)
    have hcW : c < (image.getD 0 []).length := by
      rw [← hrowW]
      exact hc
    have hgpu : (((c, r) ∈ (List.range gw).product (List.range gh)) ∧
        (c < (image.getD 0 []).length ∧ r < image.length)) ∧
        r < image.length ∧ c < (image.getD r []).length :=
      ⟨⟨List.pair_mem_product.mpr ⟨List.mem_range.mpr (by omega),
        List.mem_range.mpr (by omega)⟩, hcW, hr⟩, hr, hc⟩
    have hcpu : (((c, r) ∈ cpuPairs (image.getD 0 []).length image.length) ∧ True) ∧
        r < image.length ∧ c < (image.getD r []).length :=
      ⟨⟨(mem_cpuPairs _ _ _ _).mpr ⟨hcW, hr⟩, trivial⟩, hr, hc⟩
    rw [foldl_gwp_getD, foldl_gwp_getD, if_pos hgpu, if_pos hcpu]

/-- C5 witness: a 1 x 1 image rendered by both the sequential loop and a
1 x 1 GPU grid. -/
theorem C5_fractal_cpu_gpu_agree_witness :
    ((create_fractal_gpu_run 0 1 0 1 [[0]] 1 1 1).getD 0 []).getD 0 0 =
      ((create_fractal 0 1 0 1 [[0]] 1).getD 0 []).getD 0 0 :=
  (C5_fractal_cpu_gpu_agree 0 1 0 1 [[0]] 1 1 1
    (by decide) (by decide) (by decide)).2.2 0 0 (by decide) (by decide)

/-- C5 counterexample: on the viewport `(-2, 1, -1, 1)`, a 2-row, 3-column
image and 3 iterations, the sequential renderer puts escape count 2 at
pixel `(y, x) = (0, 1)` while the ufunc pixel vector, reshaped to the
image shape, holds 255 at that pixel: the renderers do not agree pixel for
pixel. -/
theorem C5_three_renderers_counterexample :
    ¬ (((create_fractal (-2) 1 (-1) 1 [[0, 0, 0], [0, 0, 0]] 3).getD 0 []).getD 1 0 =
        (create_fractal_ufunc (-2) 1 (-1) 1 3 2 3).getD (0 * 3 + 1) 0) := by
  have hcpu : ((create_fractal (-2) 1 (-1) 1 [[0, 0, 0], [0, 0, 0]] 3).getD 0 []).getD 1 0 = 2 := by
    rw [create_fractal_eq_fold, foldl_gwp_getD, if_pos]
    · norm_num [mandelbrot, mandelLoop, cmul, cadd, normSq2]
    · refine ⟨⟨(mem_cpuPairs _ _ _ _).mpr ⟨by norm_num, by norm_num⟩, trivial⟩, ?_, ?_⟩
      · norm_num
      · norm_num
  have hufunc : (create_fractal_ufunc (-2) 1 (-1) 1 3 2 3).getD (0 * 3 + 1) 0 = 255 := by
    unfold create_fractal_ufunc
    rw [List.getD_eq_getElem _ _ (by simp), List.getElem_map, List.getElem_range]
    norm_num [mandel, mandelbrot, mandelLoop, cmul, cadd, normSq2]
  intro hcon
  rw [hcpu, hufunc] at hcon
  exact absurd hcon (by decide)
